import Mathlib

set_option maxRecDepth 2000

/-!
Verification development for the `nspcc-dev/hrw` repository (Rendezvous /
highest-random-weight hashing).

Shallow embedding conventions:
* Go `uint64` values are modelled as `ℕ`; every operation that can wrap in Go
  is written with an explicit `% 2^64`.  Operations that provably cannot wrap
  on `uint64` inputs are written without the reduction and carry a comment.
* Go `float64` values are modelled in two ways:
  - for `ValidateWeights`, as `Option ℚ` where `none` stands for NaN and
    `some q` for a finite value `q` (the weights appearing in the repository
    are finite; comparisons of finite doubles agree with the rational order);
  - for the float normalizer family and the float score computations, as `ℚ`
    with exact field arithmetic, the idealized real-number semantics of the
    float64 code.  Divergences proved against this idealization are many
    orders of magnitude larger than double rounding error.
* A Go function that can `panic` is modelled with an `Option` result;
  `none` means the call panics.
* Go's `sort.Slice` / `sort.Sort` (package `sort`, Go ≥ 1.19) run plain
  insertion sort for ranges of at most 12 elements and are modelled here by
  the insertion sort `goSortLess`; for longer inputs `goSortLess` still
  produces a sequence ordered by the same `Less` predicate, which is all the
  theorems below use.  `sort.Stable` produces the unique stable order, which
  is exactly `goSortLess`'s output for every length.
-/

/-- The mixing function from `hrw.go` (`func distance(x uint64, y uint64) uint64`):
xor of the inputs followed by the 64-bit murmur3 finalizer.  Multiplications are
reduced mod `2^64` exactly as Go's `uint64` arithmetic does. -/
def distance (x y : ℕ) : ℕ :=
  let acc0 := x ^^^ y
  let acc1 := acc0 ^^^ (acc0 >>> 33)
  let acc2 := (acc1 * 0xff51afd7ed558ccd) % 2 ^ 64
  let acc3 := acc2 ^^^ (acc2 >>> 33)
  let acc4 := (acc3 * 0xc4ceb9fe1a85ec53) % 2 ^ 64
  acc4 ^^^ (acc4 >>> 33)

namespace normalizer

/-- `Div` from `normalizer/float.go`:
```
func Div(a, b uint64) uint64 {
    hi, lo := bits.Mul64(a, math.MaxUint64)
    if hi > b { return math.MaxUint64 }
    q, _ := bits.Div64(hi, lo, b)
    return q
}
```
`bits.Mul64 a c` is the exact product split as `(hi, lo) = (a*c / 2^64, a*c % 2^64)`.
`bits.Div64 hi lo b` panics when `b = 0` (divide by zero) or `b ≤ hi` (quotient
does not fit in 64 bits), otherwise it returns `(hi*2^64 + lo) / b`.
A panicking call is modelled as `none`. -/
def Div (a b : ℕ) : Option ℕ :=
  let hi := a * (2 ^ 64 - 1) / 2 ^ 64
  let lo := a * (2 ^ 64 - 1) % 2 ^ 64
  if hi > b then some (2 ^ 64 - 1)
  else if b = 0 ∨ b ≤ hi then none
  else some ((hi * 2 ^ 64 + lo) / b)

/-- `reverseMinU64.Normalize` from `normalizer/uint64.go`: `0` for `w = 0`,
otherwise `Div(min, w)` (which may panic, see `Div`). -/
def reverseMinU64Normalize (min w : ℕ) : Option ℕ :=
  if w = 0 then some 0 else Div min w

/-- `constU64.Normalize` from `normalizer/uint64.go`: always returns the
configured value; it never panics, hence always `some`. -/
def constU64Norm (value : ℕ) : ℕ → Option ℕ :=
  fun _ => some value

/-- `constF64.Normalize` from `normalizer/float.go` (float family): always
returns the configured value. -/
def constF64Normalize (value w : ℚ) : ℚ :=
  value

/-- `logFactor` from `normalizer/float.go` (`2 << 16`), "used to gain some
precision when mapping from logarithm to uint64 domain". -/
def logFactor : ℕ := 131072

/-- `log2` from `normalizer/float.go`:
`func log2(u uint64) uint64 { return uint64(math.Log2(float64(u)) * logFactor) }`.
The float64 logarithm is transcendental, so the embedding takes the exact
rational value `l` of the IEEE-754 double `math.Log2(float64(u))` as a
parameter.  Multiplying a double by `logFactor = 2^17` is exact (a
power-of-two scaling with no overflow in the ranges involved) and the
`uint64` conversion truncates toward zero, so the Go function computes
exactly `⌊l * 2^17⌋`.  Theorems instantiate `l` only where its value is
robust: `Log2 4 = 2` exactly (radix-2 exponent extraction), and every double
within `2·10⁻¹⁰` of `log₂ 10` — a margin of more than `10⁵` ulps around any
faithful float64 logarithm — yields the same floor `435411`. -/
def log2fp (l : ℚ) : ℕ :=
  (⌊l * (logFactor : ℚ)⌋).toNat

/-- `logRatioU64.Normalize` from `normalizer/uint64.go`: the constructor
stores `maxLog = log2(max)` and `Normalize(x)` returns `0` when
`maxLog = 0` or `x = 0`, otherwise `Div(log2(x), maxLog)`.  `lmax` and `lx`
are the exact rational values of the float64 logarithms `Log2(max)` and
`Log2(x)` (see `log2fp`). -/
def logRatioU64Normalize (lmax lx : ℚ) (x : ℕ) : Option ℕ :=
  if log2fp lmax = 0 ∨ x = 0 then some 0 else Div (log2fp lx) (log2fp lmax)

/-- `logRatioF64.Normalize` from `normalizer/float.go` (float family),
idealized over `ℚ`: the constructor stores `maxLog = Log2(max)` and
`Normalize(x)` returns `0` when `maxLog = 0` or `x = 0`, otherwise
`Log2(x) / maxLog`, with the float64 logarithms passed as their exact
rational values as in `log2fp`. -/
def logRatioF64Normalize (lmax lx : ℚ) (x : ℚ) : ℚ :=
  if lmax = 0 ∨ x = 0 then 0 else lx / lmax

end normalizer

/-- One step of insertion sort: insert `x` (a later input element) into the
already-sorted accumulator, moving it left past exactly the elements it is
`less` than.  Together with `goSortLess` this reproduces the in-place
insertion sort used by Go's sort package. -/
def goInsert (less : α → α → Bool) (x : α) : List α → List α
  | [] => [x]
  | y :: ys => if less x y then x :: y :: ys else y :: goInsert less x ys

/-- Model of the Go sorts with a `Less` predicate.  This is literally Go's
insertion sort (the exact algorithm `sort.Slice`/`sort.Sort` run for ranges
of at most 12 elements, and the unique stable order produced by
`sort.Stable` for every length): elements are taken in input order and each
is moved left past exactly the elements it is `less` than. -/
def goSortLess (less : α → α → Bool) (l : List α) : List α :=
  l.foldl (fun acc x => goInsert less x acc) []

/-- `allSameF` from `hrw.go` (generic float slice): true iff every element
equals the first (vacuously true for the empty slice).  Weights idealized
as `ℚ`. -/
def allSameF (fs : List ℚ) : Bool :=
  match fs with
  | [] => true
  | x :: _ => fs.all fun y => decide (y = x)

/-- `allSameF64` from the v1 `hrw.go`: same loop as `allSameF`, over
`[]float64`. -/
def allSameF64 (fs : List ℚ) : Bool :=
  match fs with
  | [] => true
  | x :: _ => fs.all fun y => decide (y = x)

/-- `allSame` from `hrwu64.go`: true iff every `uint64` element equals the
first. -/
def allSame (ns : List ℕ) : Bool :=
  match ns with
  | [] => true
  | x :: _ => ns.all fun y => decide (y = x)

/-- The generic `Sort[V, P Hashable](vv []V, object P)` from `hrw.go`.
The object is represented by its hash `o` (the code's `oHash`), and an item
`v` by `h v` (the code's `vv[i].Hash()`).  The code fills
`s.distances[i] = distance(vv[i].Hash(), oHash)` and runs `sort.Stable`,
swapping items and distances together; since each distance is a function of
its item, this is the stable sort of `vv` keyed by
`distance (h v) o`, which is what `goSortLess` computes. -/
def SortV (h : α → ℕ) (vv : List α) (o : ℕ) : List α :=
  goSortLess (fun a b => decide (distance (h a) o < distance (h b) o)) vv

/-- `SortWeighted[V, P Hashable, W Float](vv []V, weights []W, object P)` from
`hrw.go`.  Mismatched lengths: return with `vv` untouched.  All weights
equal: delegate to `Sort`.  Otherwise stable-sort by the float score
`distance(vv[i].Hash(), oHash) / weights[i]` (idealized over `ℚ`; this
branch is not used by any theorem below). -/
def SortWeighted (h : α → ℕ) (vv : List α) (weights : List ℚ) (o : ℕ) : List α :=
  if vv.length ≠ weights.length then vv
  else if allSameF weights then SortV h vv o
  else
    let ds := List.zipWith (fun v w => ((distance (h v) o : ℚ) / w)) vv weights
    (goSortLess (fun p q : α × ℚ => decide (p.2 < q.2)) (vv.zip ds)).map Prod.fst

/-- The index-returning `Sort(nodes []uint64, hash uint64) []uint64` from the
v1 `hrw.go`: initializes `sorted = [0, …, l-1]`, computes
`dist[i] = distance(nodes[i], hash)` and runs
`sort.Slice(sorted, func(i, j) { return dist[sorted[i]] < dist[sorted[j]] })`,
i.e. sorts the index slice keyed by `dist`. -/
def SortU64 (nodes : List ℕ) (hash : ℕ) : List ℕ :=
  let dist := nodes.map fun nd => distance nd hash
  goSortLess (fun i j => decide (dist.getD i 0 < dist.getD j 0))
    (List.range nodes.length)

/-- The comparison closure of `SortByWeightU64Normalized` (`hrwu64.go`):
```
di := math.MaxUint64 - dist[ii]
dj := math.MaxUint64 - dist[jj]
wiH, wiL := bits.Mul64(weights[ii], di)
wjH, wjL := bits.Mul64(weights[jj], dj)
return wiH > wjH || wiH == wjH && wiL > wjL
```
`bits.Mul64 w d` is the exact product split as `(w*d / 2^64, w*d % 2^64)`. -/
def lessProd (weights dist : List ℕ) (i j : ℕ) : Bool :=
  let di := (2 ^ 64 - 1) - dist.getD i 0
  let dj := (2 ^ 64 - 1) - dist.getD j 0
  let wiH := weights.getD i 0 * di / 2 ^ 64
  let wiL := weights.getD i 0 * di % 2 ^ 64
  let wjH := weights.getD j 0 * dj / 2 ^ 64
  let wjL := weights.getD j 0 * dj % 2 ^ 64
  decide (wjH < wiH) || (decide (wiH = wjH) && decide (wjL < wiL))

/-- The exact (untruncated) 128-bit score of position `i`:
`weights[i] * (maxUint64 - dist[i])`. -/
def prodKey (weights dist : List ℕ) (i : ℕ) : ℕ :=
  weights.getD i 0 * ((2 ^ 64 - 1) - dist.getD i 0)

/-- The distance slice `dist[i] = distance(nodes[i], hash)` shared by the
`hrwu64.go` functions. -/
def distL (nodes : List ℕ) (hash : ℕ) : List ℕ :=
  nodes.map fun nd => distance nd hash

/-- `SortByWeightU64Normalized(nodes, weights []uint64, hash uint64)` from
`hrwu64.go`.  Mismatched lengths panic (`none`).  The source then runs
`if allSame(nodes) { Sort(nodes, hash) }` — note the missing `return`: the
call's result is discarded and `Sort` does not mutate `nodes`, so the guard
has no effect on the state or result and execution always continues into the
weighted path, which sorts the index slice by `lessProd` (descending exact
128-bit product) and returns the node values in that order. -/
def SortByWeightU64Normalized (nodes weights : List ℕ) (hash : ℕ) : Option (List ℕ) :=
  if nodes.length ≠ weights.length then none
  else
    let dist := distL nodes hash
    let ind := goSortLess (fun i j => lessProd weights dist i j) (List.range nodes.length)
    some (ind.map fun i => nodes.getD i 0)

/-- `SortByWeightU64(norm, nodes, weights []uint64, hash uint64)` from
`hrwu64.go`: overwrites `weights[i]` with `norm.Normalize(weights[i])` in
place, then calls `SortByWeightU64Normalized`.  The normalizer is modelled as
`ℕ → Option ℕ` because some `Uint64Norm` implementations can panic.  The
result pairs the final contents of the caller's `weights` slice with the
returned ranking. -/
def SortByWeightU64 (norm : ℕ → Option ℕ) (nodes weights : List ℕ) (hash : ℕ) :
    Option (List ℕ × List ℕ) := do
  let ws ← weights.mapM norm
  let res ← SortByWeightU64Normalized nodes ws hash
  some (ws, res)

/-- The v1 `sortByWeight(l, byIndex=false, nodes, weights, hash, swap)`
pipeline (`hrw.go`) as used from `SortByWeight`, acting on the slice behind
`swap` (`result`): `newSorter` builds `ind = [0,…,l-1]` and
`dist[i] = distance(nodes[i], hash)`, and the sorter's `Swap` exchanges
entries of `result` and `ind` together, so the sort permutes the pairs
`(result[i], ind[i])`.  With all weights equal it falls back to
`sortByDistance` (ascending `dist[ind[i]]`); otherwise it orders by the
float score `float64(maxUint64 - dist[ii]) * weights[ii]` descending
(idealized over `ℚ`). -/
def sortByWeightF (l : ℕ) (nodes : List ℕ) (weights : List ℚ) (hash : ℕ)
    (result : List ℕ) : List ℕ :=
  let dist := nodes.map fun nd => distance nd hash
  if allSameF64 weights then
    (goSortLess (fun p q : ℕ × ℕ => decide (dist.getD p.2 0 < dist.getD q.2 0))
      (result.zip (List.range l))).map Prod.fst
  else
    (goSortLess (fun p q : ℕ × ℕ =>
        decide ((((2 ^ 64 - 1) - dist.getD q.2 0 : ℕ) : ℚ) * weights.getD q.2 0 <
          (((2 ^ 64 - 1) - dist.getD p.2 0 : ℕ) : ℚ) * weights.getD p.2 0))
      (result.zip (List.range l))).map Prod.fst

/-- `SortByWeight(nodes []uint64, weights []float64, hash uint64) []uint64`
from the v1 `hrw.go`:
```
result := make([]uint64, len(nodes))
copy(nodes, result)
sortByWeight(len(nodes), false, nodes, weights, hash, reflect.Swapper(result))
return result
```
`copy(nodes, result)` copies the freshly allocated all-zero `result` INTO the
caller's `nodes` slice (Go's `copy(dst, src)`), so `nodes` is zeroed before
the sort even runs.  The value returned is the triple
(final `nodes`, final `weights`, returned `result`). -/
def SortByWeight (nodes : List ℕ) (weights : List ℚ) (hash : ℕ) :
    List ℕ × List ℚ × List ℕ :=
  let zeroed := List.replicate nodes.length 0
  (zeroed, weights,
    sortByWeightF nodes.length zeroed weights hash (List.replicate nodes.length 0))

/-- `NormalizedMaxWeight` from the v1 `hrw.go`. -/
def NormalizedMaxWeight : ℚ := 1

/-- `NormalizedMinWeight` from the v1 `hrw.go`. -/
def NormalizedMinWeight : ℚ := 0

/-- `ValidateWeights(weights []float64) error` from the v1 `hrw.go`: returns a
"weights are not normalized" error as soon as some entry is NaN, above
`NormalizedMaxWeight` or below `NormalizedMinWeight`.  A float64 is modelled
as `Option ℚ` with `none` = NaN; `true` means an error is returned. -/
def ValidateWeights (weights : List (Option ℚ)) : Bool :=
  weights.any fun w =>
    match w with
    | none => true
    | some q => decide (NormalizedMaxWeight < q) || decide (q < NormalizedMinWeight)

/-! ### Lemmas about the insertion-sort model -/

theorem goInsert_perm (less : α → α → Bool) (x : α) :
    ∀ l : List α, (goInsert less x l).Perm (x :: l)
  | [] => List.Perm.refl _
  | y :: ys => by
    unfold goInsert
    split
    · exact List.Perm.refl _
    · exact ((goInsert_perm less x ys).cons y).trans (List.Perm.swap x y ys)

theorem goSort_foldl_perm (less : α → α → Bool) :
    ∀ (l acc : List α),
      (l.foldl (fun acc x => goInsert less x acc) acc).Perm (acc ++ l)
  | [], acc => by simp
  | x :: xs, acc => by
    simp only [List.foldl_cons]
    refine (goSort_foldl_perm less xs (goInsert less x acc)).trans ?_
    refine (List.Perm.append_right xs (goInsert_perm less x acc)).trans ?_
    exact List.perm_middle.symm

theorem goSortLess_perm (less : α → α → Bool) (l : List α) :
    (goSortLess less l).Perm l := by
  simpa [goSortLess] using goSort_foldl_perm less l []

theorem goInsert_pairwise {less : α → α → Bool}
    (H1 : ∀ a b c, less a b = false → less b c = false → less a c = false)
    (H2 : ∀ a b, less a b = true → less b a = false) (x : α) :
    ∀ {l : List α}, l.Pairwise (fun a b => less b a = false) →
      (goInsert less x l).Pairwise (fun a b => less b a = false) := by
  intro l
  induction l with
  | nil => intro _; simp [goInsert]
  | cons y ys ih =>
    intro hp
    rcases List.pairwise_cons.1 hp with ⟨hy, hys⟩
    unfold goInsert
    split
    case isTrue hxy =>
      refine List.Pairwise.cons ?_ hp
      intro z hz
      rcases List.mem_cons.1 hz with rfl | hzys
      · exact H2 x z hxy
      · exact H1 z y x (hy z hzys) (H2 x y hxy)
    case isFalse hxy =>
      refine List.Pairwise.cons ?_ (ih hys)
      intro z hz
      have hz2 := (goInsert_perm less x ys).mem_iff.1 hz
      rcases List.mem_cons.1 hz2 with rfl | hzys
      · exact Bool.eq_false_iff.2 hxy
      · exact hy z hzys

theorem goSort_foldl_pairwise {less : α → α → Bool}
    (H1 : ∀ a b c, less a b = false → less b c = false → less a c = false)
    (H2 : ∀ a b, less a b = true → less b a = false) :
    ∀ (l acc : List α), acc.Pairwise (fun a b => less b a = false) →
      (l.foldl (fun acc x => goInsert less x acc) acc).Pairwise
        (fun a b => less b a = false)
  | [], _, hacc => hacc
  | x :: xs, acc, hacc => by
    simp only [List.foldl_cons]
    exact goSort_foldl_pairwise H1 H2 xs (goInsert less x acc)
      (goInsert_pairwise H1 H2 x hacc)

theorem goSortLess_pairwise {less : α → α → Bool}
    (H1 : ∀ a b c, less a b = false → less b c = false → less a c = false)
    (H2 : ∀ a b, less a b = true → less b a = false) (l : List α) :
    (goSortLess less l).Pairwise (fun a b => less b a = false) :=
  goSort_foldl_pairwise H1 H2 l [] List.Pairwise.nil

theorem decide_lt_H1 (k : α → ℕ) :
    ∀ a b c : α, decide (k a < k b) = false → decide (k b < k c) = false →
      decide (k a < k c) = false := by
  intro a b c h1 h2
  simp only [decide_eq_false_iff_not, not_lt] at h1 h2 ⊢
  omega

theorem decide_lt_H2 (k : α → ℕ) :
    ∀ a b : α, decide (k a < k b) = true → decide (k b < k a) = false := by
  intro a b h
  simp only [decide_eq_true_eq] at h
  simp only [decide_eq_false_iff_not, not_lt]
  omega

theorem lessProd_iff (weights dist : List ℕ) (i j : ℕ) :
    lessProd weights dist i j = true ↔
      prodKey weights dist j < prodKey weights dist i := by
  unfold lessProd prodKey
  simp only [Bool.or_eq_true, Bool.and_eq_true, decide_eq_true_eq]
  have h64 : (2 : ℕ) ^ 64 = 18446744073709551616 := by norm_num
  rw [h64]
  omega

theorem lessProd_H1 (weights dist : List ℕ) :
    ∀ a b c, lessProd weights dist a b = false → lessProd weights dist b c = false →
      lessProd weights dist a c = false := by
  intro a b c h1 h2
  rw [Bool.eq_false_iff, Ne, lessProd_iff] at h1 h2 ⊢
  omega

theorem lessProd_H2 (weights dist : List ℕ) :
    ∀ a b, lessProd weights dist a b = true → lessProd weights dist b a = false := by
  intro a b h
  rw [lessProd_iff] at h
  rw [Bool.eq_false_iff, Ne, lessProd_iff]
  omega

theorem goSortLess_zip_replicate_fst (less : ℕ × ℕ → ℕ × ℕ → Bool) (n : ℕ) :
    (goSortLess less ((List.replicate n (0 : ℕ)).zip (List.range n))).map Prod.fst =
      List.replicate n 0 := by
  have hperm := goSortLess_perm less ((List.replicate n (0 : ℕ)).zip (List.range n))
  apply List.eq_replicate.2
  constructor
  · rw [List.length_map, hperm.length_eq, List.length_zip, List.length_replicate,
      List.length_range, Nat.min_self]
  · intro b hb
    obtain ⟨p, hp, rfl⟩ := List.mem_map.1 hb
    have hmem := hperm.mem_iff.1 hp
    exact List.eq_of_mem_replicate (List.of_mem_zip hmem).1

theorem mapM_some_eq (f : ℕ → ℕ) :
    ∀ l : List ℕ, l.mapM (fun w => some (f w)) = some (l.map f)
  | [] => rfl
  | x :: xs => by
    rw [List.mapM_cons, mapM_some_eq f xs]
    rfl

/-- C3 (counterexample / bug demonstration): the source's saturation guard is
`hi > b` while `bits.Div64` panics whenever `b ≤ hi`, so `Div(3, 2)` — where
the true quotient exceeds `maxUint64` by the smallest margin, `hi = b = 2` —
panics instead of saturating; `Div(0, 0)` and `Div(1, 0)` panic with a
division by zero; one step further, `Div(4, 2)`, saturates fine, showing the
guard is off by exactly one; consequently `reverseMinU64` with `min = 3`
panics on weight `2`. -/
theorem div_guard_off_by_one :
    normalizer.Div 3 2 = none ∧ normalizer.Div 0 0 = none ∧
    normalizer.Div 1 0 = none ∧
    normalizer.Div 4 2 = some (2 ^ 64 - 1) ∧
    normalizer.reverseMinU64Normalize 3 2 = none := by
  refine ⟨by decide, by decide, by decide, by decide, by decide⟩

/-- C2 (counterexample): `SortByWeightU64Normalized` does not treat a length
mismatch as a safe no-op — it panics (`panic(fmt.Errorf("lengths don't
match: ..."))`). -/
theorem u64normalized_len_mismatch_panics :
    SortByWeightU64Normalized [] [0] 0 = none := by decide

/-- C2 (amended): on mismatched lengths, `SortWeighted` is a safe no-op that
returns with the caller's slice exactly as given and cannot panic, while
`SortByWeightU64Normalized` always panics with a lengths-don't-match error
instead of no-op-ing. -/
theorem len_mismatch_contract (h : β → ℕ) (vv : List β) (ws : List ℚ) (o : ℕ)
    (nodes w2 : List ℕ) (hsh : ℕ)
    (h1 : vv.length ≠ ws.length) (h2 : nodes.length ≠ w2.length) :
    SortWeighted h vv ws o = vv ∧ SortByWeightU64Normalized nodes w2 hsh = none := by
  constructor
  · unfold SortWeighted
    rw [if_pos h1]
  · unfold SortByWeightU64Normalized
    rw [if_pos h2]

/-- C2 (witness): the length-mismatch contract at concrete inputs. -/
theorem len_mismatch_contract_witness :
    ([4] : List ℕ).length ≠ ([] : List ℚ).length ∧
    ([1] : List ℕ).length ≠ ([0, 0] : List ℕ).length ∧
    (SortWeighted id [4] [] 0 = [4] ∧ SortByWeightU64Normalized [1] [0, 0] 0 = none) :=
  ⟨by decide, by decide,
    len_mismatch_contract id [4] [] 0 [1] [0, 0] 0 (by decide) (by decide)⟩

/-- C4 (bug demonstration): in `SortByWeightU64Normalized` the degenerate-input
guard `if allSame(nodes) { Sort(nodes, hash) }` misses a `return`: `Sort`'s
result is discarded and the weighted path runs anyway.  On the all-equal
input `nodes = [7,7]` with `weights = [1,2]` the function returns the node
values `[7,7]` ordered by weight, whereas the unweighted `Sort([7,7], 0)`
ranking it was supposed to fall back to is the index permutation `[0,1]`. -/
theorem degenerate_guard_no_effect :
    allSame [7, 7] = true ∧
    SortByWeightU64Normalized [7, 7] [1, 2] 0 = some [7, 7] ∧
    SortU64 [7, 7] 0 = [0, 1] ∧
    some ([7, 7] : List ℕ) ≠ some (SortU64 [7, 7] 0) := by
  refine ⟨by decide, by decide, by decide, by decide⟩

/-- C7: `SortWeighted` with equal-length, all-equal weights (any length,
including 0) literally delegates to the unweighted `Sort`, so the reordering
— tie-breaks included — is identical. -/
theorem sortWeighted_uniform_delegates (h : β → ℕ) (vv : List β) (weights : List ℚ)
    (o : ℕ) (hlen : vv.length = weights.length) (hsame : allSameF weights = true) :
    SortWeighted h vv weights o = SortV h vv o := by
  unfold SortWeighted
  rw [if_neg (by omega), if_pos hsame]

/-- C7 (witness): uniform-weight delegation at concrete inputs. -/
theorem sortWeighted_uniform_delegates_witness :
    ([9, 3, 7] : List ℕ).length = ([1, 1, 1] : List ℚ).length ∧
    allSameF [1, 1, 1] = true ∧
    SortWeighted id [9, 3, 7] [1, 1, 1] 4 = SortV id [9, 3, 7] 4 :=
  ⟨by decide, by decide,
    sortWeighted_uniform_delegates id [9, 3, 7] [1, 1, 1] 4 (by decide) (by decide)⟩

/-- C5 (counterexample): the ranking-returning entrypoints do mutate their
inputs.  `SortByWeight` zeroes the caller's `nodes` slice (the reversed
`copy(nodes, result)`) — here `[1]` becomes `[0]` — and `SortByWeightU64`
overwrites the caller's `weights` slice with normalized values — here a
constant normalizer turns `[1]` into `[5]`. -/
theorem weighted_sorts_mutate_inputs :
    SortByWeight [1] [(1 : ℚ)] 0 = ([0], [(1 : ℚ)], [0]) ∧
    SortByWeightU64 (normalizer.constU64Norm 5) [1] [1] 0 = some ([5], [1]) ∧
    ([0] : List ℕ) ≠ [1] ∧ ([5] : List ℕ) ≠ [1] := by
  refine ⟨by decide, by decide, by decide, by decide⟩

/-- C5 (amended): what the entrypoints actually do to the caller's slices:
`SortByWeight` leaves `weights` unchanged but replaces the contents of
`nodes` with zeros and returns an all-zero ranking (the reversed `copy`),
and `SortByWeightU64` (with any non-panicking normalizer `f`) leaves the
caller's `weights` slice holding `weights.map f`, the normalized values,
not its pre-call contents. -/
theorem weighted_sort_slice_effects (nodes : List ℕ) (weights : List ℚ) (hash : ℕ)
    (f : ℕ → ℕ) (nodes2 weights2 : List ℕ) (hash2 : ℕ)
    (hlen : nodes2.length = weights2.length) :
    SortByWeight nodes weights hash =
      (List.replicate nodes.length 0, weights, List.replicate nodes.length 0) ∧
    (SortByWeightU64 (fun w => some (f w)) nodes2 weights2 hash2).map Prod.fst =
      some (weights2.map f) := by
  constructor
  · unfold SortByWeight sortByWeightF
    simp only [Prod.mk.injEq]
    refine ⟨trivial, trivial, ?_⟩
    split
    · exact goSortLess_zip_replicate_fst _ _
    · exact goSortLess_zip_replicate_fst _ _
  · have hnorm : SortByWeightU64Normalized nodes2 (weights2.map f) hash2 =
        some ((goSortLess
            (fun i j => lessProd (weights2.map f) (distL nodes2 hash2) i j)
            (List.range nodes2.length)).map fun i => nodes2.getD i 0) := by
      unfold SortByWeightU64Normalized
      rw [if_neg (by simp [hlen])]
    rw [SortByWeightU64, mapM_some_eq f weights2]
    simp [hnorm]

/-- C5 (witness): the slice-effect theorem at concrete inputs. -/
theorem weighted_sort_slice_effects_witness :
    ([7] : List ℕ).length = ([3] : List ℕ).length ∧
    (SortByWeight [4] [(2 : ℚ)] 0 =
        (List.replicate ([4] : List ℕ).length 0, [(2 : ℚ)],
          List.replicate ([4] : List ℕ).length 0) ∧
      (SortByWeightU64 (fun w => some (Nat.succ w)) [7] [3] 0).map Prod.fst =
        some (([3] : List ℕ).map Nat.succ)) :=
  ⟨rfl, weighted_sort_slice_effects [4] [(2 : ℚ)] 0 Nat.succ [7] [3] 0 rfl⟩

/-- C8 (counterexample): the "ranking" returned by `SortByWeightU64Normalized`
is the list of node values, not of positions: for `nodes = [5,6]` it returns
a list of the node values `5` and `6`, which is neither `[0,1]` nor `[1,0]`,
the only possible position permutations. -/
theorem ranking_returns_values_not_positions :
    SortByWeightU64Normalized [5, 6] [1, 1] 0 = some [5, 6] ∧
    ([5, 6] : List ℕ) ≠ [0, 1] ∧ ([5, 6] : List ℕ) ≠ [1, 0] := by
  refine ⟨by decide, by decide, by decide⟩

/-- C8 (amended): with equal lengths (and nodes not all equal, so the claim's
degenerate case is excluded), `SortByWeightU64Normalized` returns the node
values `nodes[ind[0]], nodes[ind[1]], …` where `ind` is a permutation of the
positions `0, …, n-1` arranged in non-increasing order of the exact 128-bit
product `weights[i] * (maxUint64 - distance(nodes[i], hash))` (compared as
`(high, low)` pairs, which order exactly as the untruncated products). -/
theorem sortByWeightU64Normalized_product_order (nodes weights : List ℕ) (hash : ℕ)
    (hlen : nodes.length = weights.length) (hdeg : allSame nodes = false) :
    ∃ ind : List ℕ,
      SortByWeightU64Normalized nodes weights hash =
        some (ind.map fun i => nodes.getD i 0) ∧
      ind.Perm (List.range nodes.length) ∧
      ind.Pairwise (fun i j =>
        prodKey weights (distL nodes hash) j ≤ prodKey weights (distL nodes hash) i) := by
  refine ⟨goSortLess (fun i j => lessProd weights (distL nodes hash) i j)
    (List.range nodes.length), ?_, goSortLess_perm _ _, ?_⟩
  · unfold SortByWeightU64Normalized
    rw [if_neg (by omega)]
  · have hp := goSortLess_pairwise (lessProd_H1 weights (distL nodes hash))
      (lessProd_H2 weights (distL nodes hash)) (List.range nodes.length)
    refine hp.imp ?_
    intro i j hfalse
    rw [Bool.eq_false_iff, Ne, lessProd_iff] at hfalse
    omega

/-- C8 (witness): the product-order theorem at concrete inputs. -/
theorem sortByWeightU64Normalized_product_order_witness :
    ([5, 6] : List ℕ).length = ([3, 4] : List ℕ).length ∧
    allSame [5, 6] = false ∧
    (∃ ind : List ℕ,
      SortByWeightU64Normalized [5, 6] [3, 4] 0 =
        some (ind.map fun i => ([5, 6] : List ℕ).getD i 0) ∧
      ind.Perm (List.range ([5, 6] : List ℕ).length) ∧
      ind.Pairwise (fun i j =>
        prodKey [3, 4] (distL [5, 6] 0) j ≤ prodKey [3, 4] (distL [5, 6] 0) i)) :=
  ⟨by decide, by decide,
    sortByWeightU64Normalized_product_order [5, 6] [3, 4] 0 (by decide) (by decide)⟩

/-- C9: `ValidateWeights` reports an error exactly when some entry is NaN,
above `NormalizedMaxWeight = 1.0` or below `NormalizedMinWeight = 0.0`; in
particular it rejects `[10,10,10,2,2,2]` and `[NaN,1,1,0.2,0.2,0.2]` and
accepts `[1,1,1,0.2,0.2,0.2]`. -/
theorem validateWeights_spec :
    (∀ ws : List (Option ℚ), ValidateWeights ws = true ↔
      ∃ w ∈ ws, w = none ∨ ∃ q : ℚ, w = some q ∧
        (NormalizedMaxWeight < q ∨ q < NormalizedMinWeight)) ∧
    ValidateWeights [some 10, some 10, some 10, some 2, some 2, some 2] = true ∧
    ValidateWeights [none, some 1, some 1, some (1 / 5), some (1 / 5), some (1 / 5)] =
      true ∧
    ValidateWeights [some 1, some 1, some 1, some (1 / 5), some (1 / 5), some (1 / 5)] =
      false := by
  have heval : ∀ l : List (Option ℚ), ValidateWeights l =
      l.any fun w => match w with
        | none => true
        | some q => decide (NormalizedMaxWeight < q) || decide (q < NormalizedMinWeight) :=
    fun _ => rfl
  refine ⟨?_,
    by simp only [heval, NormalizedMaxWeight, NormalizedMinWeight, List.any_cons,
        List.any_nil, Bool.or_eq_true, decide_eq_true_eq]; norm_num,
    by simp only [heval, NormalizedMaxWeight, NormalizedMinWeight, List.any_cons,
        List.any_nil, Bool.or_eq_true, decide_eq_true_eq]; norm_num,
    by simp only [heval, NormalizedMaxWeight, NormalizedMinWeight, List.any_cons,
        List.any_nil, Bool.or_eq_false_iff, decide_eq_false_iff_not]; norm_num⟩
  intro ws
  unfold ValidateWeights
  rw [List.any_eq_true]
  constructor
  · rintro ⟨w, hw, hcond⟩
    refine ⟨w, hw, ?_⟩
    cases w with
    | none => exact Or.inl rfl
    | some q =>
      simp only [Bool.or_eq_true, decide_eq_true_eq] at hcond
      exact Or.inr ⟨q, rfl, hcond⟩
  · rintro ⟨w, hw, hcase⟩
    refine ⟨w, hw, ?_⟩
    rcases hcase with rfl | ⟨q, rfl, hq⟩
    · rfl
    · simp only [Bool.or_eq_true, decide_eq_true_eq]
      exact hq

/-- C10: `distance x x = 0` for every 64-bit value (the minimum possible
distance), and in the unweighted generic `Sort` any item whose hash equals
the target hash (distance 0) is placed strictly before every item with
nonzero distance. -/
theorem distance_self_zero_ranks_first :
    (∀ x : ℕ, distance x x = 0) ∧
    (∀ (h : ℕ → ℕ) (vv : List ℕ) (o i j : ℕ)
        (hi : i < (SortV h vv o).length) (hj : j < (SortV h vv o).length),
      distance (h ((SortV h vv o).getD i 0)) o = 0 →
      distance (h ((SortV h vv o).getD j 0)) o ≠ 0 → i < j) := by
  constructor
  · intro x
    simp [distance, Nat.xor_self]
  · intro h vv o i j hi hj h0 hne
    have hp2 : (SortV h vv o).Pairwise
        (fun a b => distance (h a) o ≤ distance (h b) o) := by
      unfold SortV
      refine (goSortLess_pairwise ?_ ?_ vv).imp ?_
      · exact decide_lt_H1 fun v => distance (h v) o
      · exact decide_lt_H2 fun v => distance (h v) o
      · intro a b hab
        simp only [decide_eq_false_iff_not, not_lt] at hab
        exact hab
    rw [List.pairwise_iff_getElem] at hp2
    by_contra hij
    push_neg at hij
    rcases Nat.lt_or_ge j i with hji | hge
    · have hle := hp2 j i hj hi hji
      rw [List.getD_eq_getElem _ _ hi] at h0
      rw [List.getD_eq_getElem _ _ hj] at hne
      omega
    · have heq : i = j := by omega
      subst heq
      rw [List.getD_eq_getElem _ _ hi] at h0 hne
      exact hne h0

/-- C10 (witness): with target hash `5`, the item hashing to `5` (distance 0)
is ranked before the item `3` whose distance is nonzero. -/
theorem distance_self_zero_ranks_first_witness :
    distance (id ((SortV id [3, 5] 5).getD 0 0)) 5 = 0 ∧
    distance (id ((SortV id [3, 5] 5).getD 1 0)) 5 ≠ 0 ∧
    (0 : ℕ) < 1 :=
  ⟨by decide, by decide,
    distance_self_zero_ranks_first.2 id [3, 5] 5 0 1 (by decide) (by decide)
      (by decide) (by decide)⟩
